import Mathlib

/-!
Verification of the Glyph v2 encode / decode / validate core of radiantjs.

This file gives a shallow embedding of the Glyph v2 token subsystem of the
radiantjs library (`lib/glyph/constants.js`, `lib/glyph/encoder.js`,
`lib/glyph/decoder.js`, `lib/glyph/validator.js`) and proves properties of
the embedded definitions.

Modelling conventions:
* JavaScript byte buffers (`Buffer`) are `List Nat`, one entry per byte.
* JSON-like JavaScript values are the inductive type `JValue`.  JavaScript
  objects are association lists `List (String × JValue)`; real JS objects
  cannot carry duplicate keys, so lemmas that need key uniqueness take a
  `Nodup` hypothesis.
* Machine integers do not occur: all arithmetic in the modelled code is on
  small naturals (bytes, lengths) or exact integers (basis points), which JS
  represents exactly as doubles in the modelled ranges.
* `BufferReader`/`BufferWriter` (`lib/encoding/…`) and the hash and JSON
  builtins are not part of the covered sources; their uses are modelled from
  the spec where marked.
-/

/-! ## Constants (`lib/glyph/constants.js`) -/

/-- `GLYPH_MAGIC = Buffer.from('gly', 'ascii')`: the bytes `0x67 0x6c 0x79`. -/
def GLYPH_MAGIC : List Nat := [0x67, 0x6c, 0x79]

/-- `GlyphVersion.V1`. -/
def GlyphVersion_V1 : Nat := 0x01

/-- `GlyphVersion.V2`. -/
def GlyphVersion_V2 : Nat := 0x02

/-- `EnvelopeFlags.HAS_CONTENT_ROOT = 1 << 0`. -/
def HAS_CONTENT_ROOT : Nat := 1

/-- `EnvelopeFlags.HAS_CONTROLLER = 1 << 1`. -/
def HAS_CONTROLLER : Nat := 2

/-- `EnvelopeFlags.IS_REVEAL = 1 << 7`. -/
def IS_REVEAL : Nat := 128

/-- `GlyphLimits.MAX_METADATA_SIZE`. -/
def MAX_METADATA_SIZE : Nat := 262144

/-- `GlyphLimits.MAX_INLINE_FILE_SIZE`. -/
def MAX_INLINE_FILE_SIZE : Nat := 1048576

/-- `GlyphLimits.MAX_PROTOCOLS`. -/
def MAX_PROTOCOLS : Nat := 16

/-- `GlyphLimits.MAX_NAME_SIZE`. -/
def MAX_NAME_SIZE : Nat := 256

/-- `GlyphLimits.MAX_DESC_SIZE`. -/
def MAX_DESC_SIZE : Nat := 4096

/-- `GlyphLimits.MAX_PATH_SIZE`. -/
def MAX_PATH_SIZE : Nat := 512

/-- `GlyphLimits.MAX_MIME_SIZE`. -/
def MAX_MIME_SIZE : Nat := 128

/-- `GlyphProtocol` IDs (constants.js lines 26–38).  Protocol IDs travel as JS
numbers; we use `Int` to match the numeric metadata model. -/
def GLYPH_FT : Int := 1

/-- `GlyphProtocol.GLYPH_NFT`. -/
def GLYPH_NFT : Int := 2

/-- `GlyphProtocol.GLYPH_DAT`. -/
def GLYPH_DAT : Int := 3

/-- `GlyphProtocol.GLYPH_DMINT`. -/
def GLYPH_DMINT : Int := 4

/-- `GlyphProtocol.GLYPH_MUT`. -/
def GLYPH_MUT : Int := 5

/-- `GlyphProtocol.GLYPH_BURN`. -/
def GLYPH_BURN : Int := 6

/-- `GlyphProtocol.GLYPH_CONTAINER`. -/
def GLYPH_CONTAINER : Int := 7

/-- `GlyphProtocol.GLYPH_ENCRYPTED`. -/
def GLYPH_ENCRYPTED : Int := 8

/-- `GlyphProtocol.GLYPH_TIMELOCK`. -/
def GLYPH_TIMELOCK : Int := 9

/-- `GlyphProtocol.GLYPH_AUTHORITY`. -/
def GLYPH_AUTHORITY : Int := 10

/-- `GlyphProtocol.GLYPH_WAVE`. -/
def GLYPH_WAVE : Int := 11

/-- `ProtocolNames` display table (constants.js lines 43–55).  A JS lookup of
a key outside the table yields `undefined`, which a template literal renders
as the string `undefined`. -/
def ProtocolNames (p : Int) : String :=
  if p = 1 then "Fungible Token"
  else if p = 2 then "Non-Fungible Token"
  else if p = 3 then "Data Storage"
  else if p = 4 then "Decentralized Minting"
  else if p = 5 then "Mutable State"
  else if p = 6 then "Burn"
  else if p = 7 then "Container"
  else if p = 8 then "Encrypted"
  else if p = 9 then "Timelock"
  else if p = 10 then "Authority"
  else if p = 11 then "WAVE Name"
  else "undefined"

/-! ## Validator (`lib/glyph/validator.js`) — protocol combinations -/

/-- `PROTOCOL_REQUIREMENTS` table (validator.js lines 19–27), as the lookup
function it is used as: the requirement list of a protocol ID (empty when the
ID has no entry). -/
def PROTOCOL_REQUIREMENTS (p : Int) : List Int :=
  if p = 4 then [1]
  else if p = 5 then [2]
  else if p = 7 then [2]
  else if p = 8 then [2]
  else if p = 9 then [8]
  else if p = 10 then [2]
  else if p = 11 then [2, 5]
  else []

/-- `PROTOCOL_EXCLUSIONS` (validator.js lines 32–34). -/
def PROTOCOL_EXCLUSIONS : List (Int × Int) := [(1, 2)]

/-- `PROTOCOLS_REQUIRE_BASE` (validator.js lines 39–48). -/
def PROTOCOLS_REQUIRE_BASE : List Int := [4, 5, 6, 7, 8, 9, 10, 11]

/-- The `{ valid, error? }` result object of `validateProtocols`. -/
structure VResult where
  valid : Bool
  error : Option String
deriving Repr, DecidableEq

/-- The structural stage of `validateProtocols` (validator.js lines 57–63):
the argument must be a non-empty array of at most `MAX_PROTOCOLS` entries.
(The embedding's argument type is always an array.) -/
def checkStructural (ps : List Int) : Option String :=
  if ps.isEmpty then some "Protocols array is required"
  else if ps.length > MAX_PROTOCOLS then some "Too many protocols (max 16)"
  else none

/-- The mutual-exclusion stage (validator.js lines 66–73): the first entry of
`PROTOCOL_EXCLUSIONS` with both members present produces the error. -/
def checkExclusions (ps : List Int) : Option String :=
  PROTOCOL_EXCLUSIONS.findSome? fun ab =>
    if ps.contains ab.1 && ps.contains ab.2 then
      some (ProtocolNames ab.1 ++ " and " ++ ProtocolNames ab.2 ++ " are mutually exclusive")
    else none

/-- The dependency stage (validator.js lines 76–88): scanning the protocol
list in order, the first listed protocol with an unmet requirement produces
the error. -/
def checkRequirements (ps : List Int) : Option String :=
  ps.findSome? fun p =>
    (PROTOCOL_REQUIREMENTS p).findSome? fun r =>
      if ps.contains r then none
      else some (ProtocolNames p ++ " requires " ++ ProtocolNames r)

/-- The standalone stage (validator.js lines 91–96): a single-element list
whose sole entry is in `PROTOCOLS_REQUIRE_BASE` is rejected. -/
def checkAlone (ps : List Int) : Option String :=
  match ps with
  | [p] =>
      if PROTOCOLS_REQUIRE_BASE.contains p then some (ProtocolNames p ++ " cannot exist alone")
      else none
  | _ => none

/-- The BURN stage (validator.js lines 99–106): BURN must accompany FT or
NFT. -/
def checkBurn (ps : List Int) : Option String :=
  if ps.contains 6 && !ps.contains 1 && !ps.contains 2 then
    some "Burn must accompany Fungible Token or Non-Fungible Token"
  else none

/-- `validateProtocols` (validator.js lines 56–109).  The early returns of
the source are the stage chain: the first stage producing an error wins. -/
def validateProtocols (ps : List Int) : VResult :=
  match checkStructural ps with
  | some e => ⟨false, some e⟩
  | none =>
    match checkExclusions ps with
    | some e => ⟨false, some e⟩
    | none =>
      match checkRequirements ps with
      | some e => ⟨false, some e⟩
      | none =>
        match checkAlone ps with
        | some e => ⟨false, some e⟩
        | none =>
          match checkBurn ps with
          | some e => ⟨false, some e⟩
          | none => ⟨true, none⟩

/-! ### Rules of the spec for `validateProtocols`, stated as predicates -/

/-- Spec rule (1): the protocol list is non-empty with at most 16 entries. -/
def ruleStructuralOk (ps : List Int) : Prop := ps ≠ [] ∧ ps.length ≤ 16

/-- Spec rule (2): FT and NFT cannot co-occur. -/
def ruleExclusionOk (ps : List Int) : Prop := ¬(GLYPH_FT ∈ ps ∧ GLYPH_NFT ∈ ps)

/-- Spec rule (3): DMINT requires FT; MUT, CONTAINER, ENCRYPTED, AUTHORITY
require NFT; TIMELOCK requires ENCRYPTED; WAVE requires NFT and MUT. -/
def ruleDependencyOk (ps : List Int) : Prop :=
  (GLYPH_DMINT ∈ ps → GLYPH_FT ∈ ps) ∧
  (GLYPH_MUT ∈ ps → GLYPH_NFT ∈ ps) ∧
  (GLYPH_CONTAINER ∈ ps → GLYPH_NFT ∈ ps) ∧
  (GLYPH_ENCRYPTED ∈ ps → GLYPH_NFT ∈ ps) ∧
  (GLYPH_TIMELOCK ∈ ps → GLYPH_ENCRYPTED ∈ ps) ∧
  (GLYPH_AUTHORITY ∈ ps → GLYPH_NFT ∈ ps) ∧
  (GLYPH_WAVE ∈ ps → GLYPH_NFT ∈ ps ∧ GLYPH_MUT ∈ ps)

/-- Spec rule (4): DMINT, MUT, BURN, CONTAINER, ENCRYPTED, TIMELOCK,
AUTHORITY, WAVE may never be the sole protocol present. -/
def ruleAloneOk (ps : List Int) : Prop :=
  ∀ p, ps = [p] → p ∉ ([4, 5, 6, 7, 8, 9, 10, 11] : List Int)

/-- Spec rule (5): BURN must co-occur with FT or NFT. -/
def ruleBurnOk (ps : List Int) : Prop := GLYPH_BURN ∈ ps → GLYPH_FT ∈ ps ∨ GLYPH_NFT ∈ ps

/-! ## JSON-like values and JavaScript object helpers -/

/-- JSON-compatible JavaScript values.  Objects are association lists in
insertion order (JS objects cannot hold duplicate keys; lemmas needing that
take `Nodup` hypotheses).  Numbers are modelled as exact integers. -/
inductive JValue where
  | null
  | bool (b : Bool)
  | num (n : Int)
  | str (s : String)
  | arr (xs : List JValue)
  | obj (fields : List (String × JValue))

/-- JS property read `o[k]` on an object given as a field list: the value at
the first matching key, `none` for `undefined`. -/
def jget : List (String × JValue) → String → Option JValue
  | [], _ => none
  | (k', v) :: rest, k => if k' = k then some v else jget rest k

/-- JS property read `v.k` on an arbitrary value: object lookup, `undefined`
(`none`) on primitives.  (Reading a property of JS `null` throws; that corner
is outside the modelled domain, which the covered claims never enter.) -/
def jprop : JValue → String → Option JValue
  | .obj fs, k => jget fs k
  | _, _ => none

/-- JS truthiness of a value: `null`, `false`, `0` and `""` are falsy, every
array and object is truthy. -/
def jtruthy : JValue → Bool
  | .null => false
  | .bool b => b
  | .num n => n ≠ 0
  | .str s => s ≠ ""
  | .arr _ => true
  | .obj _ => true

/-- Falsiness of a possibly-absent value: `undefined` (absence) is falsy. -/
def jfalsyOpt : Option JValue → Bool
  | none => true
  | some v => !jtruthy v

/-- JS property write `o[k] = v`: replaces the value at the first matching
key in place, otherwise appends the new binding. -/
def jsSet : List (String × JValue) → String → JValue → List (String × JValue)
  | [], k, v => [(k, v)]
  | (k', v') :: rest, k, v =>
      if k' = k then (k, v) :: rest else (k', v') :: jsSet rest k v

/-- The code points of a string, used as the sort key for canonical ordering.
JS `Array.prototype.sort()` orders keys by their code-unit sequences; on the
basic multilingual plane this is code-point lexicographic order, which is the
order used here. -/
def keyNats (s : String) : List Nat := s.data.map Char.toNat

/-- The key order of canonical encoding, as a relation on field bindings. -/
def fieldLe (p q : String × JValue) : Prop := keyNats p.1 ≤ keyNats q.1

instance : DecidableRel fieldLe := fun p q => by
  unfold fieldLe; infer_instance

instance : IsTotal (String × JValue) fieldLe :=
  ⟨fun p q => le_total (keyNats p.1) (keyNats q.1)⟩

instance : IsTrans (String × JValue) fieldLe :=
  ⟨fun _ _ _ h1 h2 => le_trans h1 h2⟩

mutual
/-- `canonicalizeObject` (encoder.js lines 62–77): recursively sorts object
keys, preserves array order, returns primitives unchanged.  The source sorts
`Object.keys(obj)` and then rebuilds the object by key lookup; with the
unique keys of a JS object this equals sorting the field list by key, the
form used here (canonicalizing the values before or after sorting commutes). -/
def canonicalizeObject : JValue → JValue
  | .obj fs => .obj (List.insertionSort fieldLe (canonFields fs))
  | .arr xs => .arr (canonList xs)
  | v => v

/-- `obj.map(canonicalizeObject)` for array elements. -/
def canonList : List JValue → List JValue
  | [] => []
  | x :: xs => canonicalizeObject x :: canonList xs

/-- Canonicalization of each value of a field list. -/
def canonFields : List (String × JValue) → List (String × JValue)
  | [] => []
  | (k, v) :: fs => (k, canonicalizeObject v) :: canonFields fs
end

/-- Modelled from the spec: JSON string quoting of the external
`JSON.stringify` builtin (the builtin is not part of the covered sources).
Backslash and quote are escaped; the claims depend only on this being a
function of the string. -/
def jsonQuote (s : String) : String :=
  "\"" ++ String.mk (s.data.foldr
    (fun c acc =>
      if c = '"' then '\\' :: '"' :: acc
      else if c = '\\' then '\\' :: '\\' :: acc
      else c :: acc) []) ++ "\""

mutual
/-- Modelled from the spec: the UTF-8 JSON-equivalent serialization performed
by the external `JSON.stringify` builtin, a pure function of the value. -/
def stringifyJ : JValue → String
  | .null => "null"
  | .bool true => "true"
  | .bool false => "false"
  | .num n => toString n
  | .str s => jsonQuote s
  | .arr xs => "[" ++ stringifyArr xs ++ "]"
  | .obj fs => "\x7b" ++ stringifyObj fs ++ "\x7d"

/-- Comma-separated serialization of array elements. -/
def stringifyArr : List JValue → String
  | [] => ""
  | [x] => stringifyJ x
  | x :: xs => stringifyJ x ++ "," ++ stringifyArr xs

/-- Comma-separated serialization of object fields. -/
def stringifyObj : List (String × JValue) → String
  | [] => ""
  | [(k, v)] => jsonQuote k ++ ":" ++ stringifyJ v
  | (k, v) :: fs => jsonQuote k ++ ":" ++ stringifyJ v ++ "," ++ stringifyObj fs
end

/-- Modelled from the spec: UTF-8 encoding of one character
(`Buffer.from(str, 'utf8')` is a Node builtin outside the covered sources). -/
def utf8Char (c : Char) : List Nat :=
  let n := c.toNat
  if n < 0x80 then [n]
  else if n < 0x800 then [0xC0 + n / 64, 0x80 + n % 64]
  else if n < 0x10000 then [0xE0 + n / 4096, 0x80 + n / 64 % 64, 0x80 + n % 64]
  else [0xF0 + n / 262144, 0x80 + n / 4096 % 64, 0x80 + n / 64 % 64, 0x80 + n % 64]

/-- Modelled from the spec: UTF-8 bytes of a string. -/
def utf8Bytes (s : String) : List Nat :=
  s.data.foldr (fun c acc => utf8Char c ++ acc) []

/-- `Buffer.byteLength(s, 'utf8')`. -/
def utf8Len (s : String) : Nat := (utf8Bytes s).length

/-! ## Encoder (`lib/glyph/encoder.js`) -/

/-- The version-defaulting side effect of `encodeMetadata` (encoder.js lines
46–48): `if (!metadata.v) metadata.v = GlyphVersion.V2`. -/
def mutateVersion (fs : List (String × JValue)) : List (String × JValue) :=
  if jfalsyOpt (jget fs "v") then jsSet fs "v" (.num 2) else fs

/-- `encodeMetadata` (encoder.js lines 44–54): defaults `v`, canonicalizes,
serializes to UTF-8 bytes.  The result pairs the caller's object as left
behind by the documented mutation with the produced bytes. -/
def encodeMetadata (fs : List (String × JValue)) :
    List (String × JValue) × List Nat :=
  let fs' := mutateVersion fs
  (fs', utf8Bytes (stringifyJ (canonicalizeObject (.obj fs'))))

/-- Modelled from the spec: the external 32-byte hash provider
(`Hash.sha256`, from `lib/crypto/hash` which is outside the covered sources).
Any fixed function producing a 32-byte digest; the claims depend only on it
being a deterministic function of the input bytes. -/
def sha256M (bytes : List Nat) : List Nat :=
  let seed := bytes.foldl (fun a b => (a * 131 + b + 17) % 1000000007) 7
  (List.range 32).map fun i => (seed / (i + 1) + seed * (i + 3) + i * i) % 256

/-- The `Object|Buffer` argument of `computeCommitHash`. -/
inductive MetaInput where
  | buf (b : List Nat)
  | obj (fs : List (String × JValue))

/-- `computeCommitHash` (encoder.js lines 85–88): hashes raw bytes directly,
otherwise hashes the `encodeMetadata` bytes of the object. -/
def computeCommitHash : MetaInput → List Nat
  | .buf b => sha256M b
  | .obj fs => sha256M (encodeMetadata fs).2

/-- `encodeCommitEnvelope` (encoder.js lines 100–135).  `BufferWriter` is
modelled from the spec as byte-list concatenation; Node's `writeUInt8` throws
outside `0..255`, modelled by the range guard.  A missing or wrong-length
commit hash is the thrown `Invalid commit hash` error; an absent optional
field is `none` (any present `Buffer` is truthy in JS). -/
def encodeCommitEnvelope (commitHash : List Nat) (flags : Nat)
    (contentRoot controller : Option (List Nat)) : Except String (List Nat) :=
  if commitHash.length ≠ 32 then .error "Invalid commit hash"
  else
    let actualFlags :=
      (flags ||| (if contentRoot.isSome then HAS_CONTENT_ROOT else 0)) |||
        (if controller.isSome then HAS_CONTROLLER else 0)
    if actualFlags > 255 then .error "flags byte out of range"
    else .ok (GLYPH_MAGIC ++ [GlyphVersion_V2, actualFlags] ++ commitHash ++
      contentRoot.getD [] ++ controller.getD [])

/-- The file-chunk loop of `encodeRevealEnvelope` (encoder.js lines 167–172):
each file is appended in order, the first file over
`MAX_INLINE_FILE_SIZE` throws. -/
def pushFiles : List (List Nat) → Except String (List (List Nat))
  | [] => .ok []
  | f :: rest =>
      if f.length > MAX_INLINE_FILE_SIZE then
        .error "File exceeds maximum inline size of 1048576 bytes"
      else (pushFiles rest).map (f :: ·)

/-- `encodeRevealEnvelope` (encoder.js lines 145–175) on metadata given as
canonical bytes (the `Buffer.isBuffer` branch; an object argument goes
through `encodeMetadata` first, see `encodeRevealEnvelopeObj`). -/
def encodeRevealEnvelope (metadataBytes : List Nat) (files : List (List Nat)) :
    Except String (List (List Nat)) :=
  if metadataBytes.length > MAX_METADATA_SIZE then
    .error "Metadata exceeds maximum size of 262144 bytes"
  else
    (pushFiles files).map fun fs =>
      (GLYPH_MAGIC ++ [GlyphVersion_V2, IS_REVEAL]) :: metadataBytes :: fs

/-- `encodeRevealEnvelope` applied to a metadata object. -/
def encodeRevealEnvelopeObj (fs : List (String × JValue))
    (files : List (List Nat)) : Except String (List (List Nat)) :=
  encodeRevealEnvelope (encodeMetadata fs).2 files

/-! ## Decoder (`lib/glyph/decoder.js`) -/

/-- `Buffer.prototype.indexOf` for a byte pattern: the first index at which
the pattern occurs in full, `none` for JS `-1`. -/
def indexOfSeq (pat : List Nat) : List Nat → Option Nat
  | [] => if pat.isEmpty then some 0 else none
  | b :: rest =>
      if pat.isPrefixOf (b :: rest) then some 0
      else (indexOfSeq pat rest).map (· + 1)

/-- Modelled from the spec: `BufferReader.read(n)` of the external
`lib/encoding/bufferreader` — a structured read that fails (throws) on
underflow, returning the bytes read and the remaining buffer otherwise. -/
def readE (n : Nat) (b : List Nat) : Except String (List Nat × List Nat) :=
  if n ≤ b.length then .ok (b.take n, b.drop n)
  else .error "read past end of buffer"

/-- Modelled from the spec: `BufferReader.readUInt8()`, failing on an
exhausted buffer. -/
def readU8 (b : List Nat) : Except String (Nat × List Nat) :=
  match b with
  | [] => .error "read past end of buffer"
  | x :: rest => .ok (x, rest)

/-- A decoded envelope.  For a reveal envelope the remaining bytes after the
header are kept raw: the source hands them to the external `JSON.parse`
builtin and stores them either parsed (`metadata`) or raw (`rawMetadata`);
which of the two happens does not affect envelope recognition. -/
inductive Envelope where
  | commit (version flags : Nat) (commitHash : List Nat)
      (contentRoot : Option (List Nat)) (controller : Option (List Nat))
  | reveal (version flags : Nat) (body : List Nat)

/-- `decodeCommitEnvelope` (decoder.js lines 133–151): 32-byte commit hash,
then a 32-byte content root exactly when flag bit 0 is set, then a 36-byte
controller exactly when flag bit 1 is set. -/
def decodeCommitEnvelopeE (b : List Nat) (version flags : Nat) :
    Except String Envelope :=
  match readE 32 b with
  | .error e => .error e
  | .ok (h, b1) =>
    match (if flags &&& HAS_CONTENT_ROOT ≠ 0 then
             match readE 32 b1 with
             | .error e => .error e
             | .ok (x, b2) => .ok (some x, b2)
           else .ok (none, b1) : Except String (Option (List Nat) × List Nat)) with
    | .error e => .error e
    | .ok (cr, b2) =>
      match (if flags &&& HAS_CONTROLLER ≠ 0 then
               match readE 36 b2 with
               | .error e => .error e
               | .ok (x, b3) => .ok (some x, b3)
             else .ok (none, b2) : Except String (Option (List Nat) × List Nat)) with
      | .error e => .error e
      | .ok (ct, _) => .ok (.commit version flags h cr ct)

/-- `decodeRevealEnvelope` (decoder.js lines 161–187): all remaining bytes
are the body; `JSON.parse` failures are caught inside, so the decode itself
cannot fail. -/
def decodeRevealEnvelopeE (b : List Nat) (version flags : Nat) :
    Except String Envelope :=
  .ok (.reveal version flags b)

/-- `decodeEnvelope` (decoder.js lines 92–123) with the `try`/`catch` made
explicit: the body inside the `try` runs in an error monad, and the `catch`
clause converts any error into the absent-envelope result `none`.  Parsing
anchors at the first occurrence of the magic bytes and never rescans. -/
def decodeEnvelopeE (scriptBuf : List Nat) : Except String (Option Envelope) :=
  match indexOfSeq GLYPH_MAGIC scriptBuf with
  | none => .ok none
  | some i =>
    let body : Except String (Option Envelope) :=
      match readE 3 (scriptBuf.drop i) with
      | .error e => .error e
      | .ok (_, b1) =>
        match readU8 b1 with
        | .error e => .error e
        | .ok (version, b2) =>
          if version ≠ GlyphVersion_V1 ∧ version ≠ GlyphVersion_V2 then .ok none
          else
            match readU8 b2 with
            | .error e => .error e
            | .ok (flags, b3) =>
              if flags &&& IS_REVEAL ≠ 0 then
                (decodeRevealEnvelopeE b3 version flags).map some
              else
                (decodeCommitEnvelopeE b3 version flags).map some
    match body with
    | .error _ => .ok none
    | .ok v => .ok v

/-- The observable result of `decodeEnvelope`: a parsed envelope or `null`. -/
def decodeEnvelope (scriptBuf : List Nat) : Option Envelope :=
  match decodeEnvelopeE scriptBuf with
  | .ok v => v
  | .error _ => none

/-! ## Validator (`lib/glyph/validator.js`) — metadata -/

/-- Coercion of a metadata protocol entry to the number used by
`validateProtocols`.  JS strict equality makes non-number entries match no
protocol ID, have no requirements and no display name; the inert sentinel
`-1` has exactly these properties (the JS coercion of numeric strings as
object keys is outside the modelled domain, which the spec's numeric
protocol lists never enter). -/
def jsNumOr (v : JValue) : Int :=
  match v with
  | .num n => n
  | _ => -1

/-- Version check of `validateMetadata` (validator.js lines 121–123):
`!metadata.v || (v !== V1 && v !== V2)`. -/
def vVersionErrs (m : List (String × JValue)) : List String :=
  match jget m "v" with
  | some (.num 1) => []
  | some (.num 2) => []
  | _ => ["Invalid or missing version (v)"]

/-- Type-field check (validator.js lines 125–127): a non-empty string. -/
def vTypeErrs (m : List (String × JValue)) : List String :=
  match jget m "type" with
  | some (.str s) => if s = "" then ["Missing type field"] else []
  | _ => ["Missing type field"]

/-- Protocols-array check (validator.js lines 129–136): the array must be
present, and its combination valid per `validateProtocols`. -/
def vProtoErrs (m : List (String × JValue)) : List String :=
  match jget m "p" with
  | some (.arr ps) =>
      if (validateProtocols (ps.map jsNumOr)).valid then []
      else (validateProtocols (ps.map jsNumOr)).error.toList
  | _ => ["Missing protocols array (p)"]

/-- Name size check (validator.js lines 139–141).  (A truthy non-string
`name` makes `Buffer.byteLength` throw in JS; string-typed names per the
data model are the modelled domain.) -/
def vNameErrs (m : List (String × JValue)) : List String :=
  match jget m "name" with
  | some (.str s) =>
      if s ≠ "" ∧ utf8Len s > MAX_NAME_SIZE then ["Name exceeds 256 bytes"] else []
  | _ => []

/-- Description size check (validator.js lines 143–145). -/
def vDescErrs (m : List (String × JValue)) : List String :=
  match jget m "desc" with
  | some (.str s) =>
      if s ≠ "" ∧ utf8Len s > MAX_DESC_SIZE then ["Description exceeds 4096 bytes"] else []
  | _ => []

/-- JS `protocols.includes(id)` on the raw metadata entries: strict equality
against the numeric protocol ID. -/
def inclNum (ps : List JValue) (k : Int) : Bool :=
  ps.any fun v => match v with | .num n => n = k | _ => false

/-- Protocol-conditioned requirements (validator.js lines 148–192), guarded
by `if (metadata.p)`; the per-protocol membership tests are JS `includes`,
i.e. strict equality against the numeric protocol IDs. -/
def vTypeSpecificErrs (m : List (String × JValue)) : List String :=
  match jget m "p" with
  | some (.arr ps) =>
      (if inclNum ps 2 &&
          (jfalsyOpt (jget m "content") ||
            jfalsyOpt ((jget m "content").bind (jprop · "primary"))) then
         ["NFT requires content.primary"] else []) ++
      (if inclNum ps 1 && jfalsyOpt (jget m "content") && jfalsyOpt (jget m "ticker") then
         ["FT requires ticker if no content"] else []) ++
      (if inclNum ps 7 && jfalsyOpt (jget m "container") then
         ["Container protocol requires container object"] else []) ++
      (if inclNum ps 4 && jfalsyOpt (jget m "dmint") then
         ["dMint protocol requires dmint configuration"] else []) ++
      (if inclNum ps 10 && jfalsyOpt (jget m "authority") then
         ["Authority protocol requires authority object"] else []) ++
      (if inclNum ps 8 && jfalsyOpt (jget m "crypto") then
         ["Encrypted protocol requires crypto object"] else [])
  | _ => []

/-- `validateContentFile` (validator.js lines 244–264). -/
def validateContentFile (file : JValue) (path : String) : List String :=
  (if jfalsyOpt (jprop file "path") then [path ++ " requires path"]
   else match jprop file "path" with
     | some (.str s) => if utf8Len s > MAX_PATH_SIZE then [path ++ ".path exceeds 512 bytes"] else []
     | _ => []) ++
  (if jfalsyOpt (jprop file "mime") then [path ++ " requires mime type"]
   else match jprop file "mime" with
     | some (.str s) => if utf8Len s > MAX_MIME_SIZE then [path ++ ".mime exceeds 128 bytes"] else []
     | _ => []) ++
  (match jprop file "size" with
   | some (.num _) => []
   | _ => [path ++ " requires size"]) ++
  (if jfalsyOpt (jprop file "hash") ||
      jfalsyOpt ((jprop file "hash").bind (jprop · "algo")) ||
      jfalsyOpt ((jprop file "hash").bind (jprop · "hex")) then
     [path ++ " requires hash with algo and hex"]
   else [])

/-- The indexed `content.files.forEach` loop (validator.js lines 221–225). -/
def vContentFilesAux : List JValue → Nat → List String
  | [], _ => []
  | f :: rest, i =>
      validateContentFile f ("content.files[" ++ toString i ++ "]") ++
        vContentFilesAux rest (i + 1)

/-- The indexed `content.refs.forEach` loop (validator.js lines 227–234):
file checks plus the external-reference `uri` requirement. -/
def vContentRefsAux : List JValue → Nat → List String
  | [], _ => []
  | r :: rest, i =>
      validateContentFile r ("content.refs[" ++ toString i ++ "]") ++
        (if jfalsyOpt (jprop r "uri") then
           ["content.refs[" ++ toString i ++ "] requires uri for external reference"]
         else []) ++
        vContentRefsAux rest (i + 1)

/-- `validateContent` (validator.js lines 216–235). -/
def validateContent (content : JValue) : List String :=
  (if jfalsyOpt (jprop content "primary") then []
   else validateContentFile (((jprop content "primary")).getD .null) "content.primary") ++
  (match jprop content "files" with
   | some (.arr files) => vContentFilesAux files 0
   | _ => []) ++
  (match jprop content "refs" with
   | some (.arr refs) => vContentRefsAux refs 0
   | _ => [])

/-- The indexed `royalty.splits.forEach` loop (validator.js lines 283–292):
per-split errors plus the running numeric `bps` total. -/
def splitErrsAux : List JValue → Nat → List String × Int
  | [], _ => ([], 0)
  | s :: rest, i =>
      ((if jfalsyOpt (jprop s "address") then
          ["royalty.splits[" ++ toString i ++ "] requires address"] else []) ++
        (match jprop s "bps" with
         | some (.num _) => []
         | _ => ["royalty.splits[" ++ toString i ++ "] requires bps"]) ++
        (splitErrsAux rest (i + 1)).1,
       (match jprop s "bps" with
        | some (.num b) => b
        | _ => 0) + (splitErrsAux rest (i + 1)).2)

/-- The strict comparison `totalBps !== royalty.bps` (validator.js line
294): with a non-numeric `royalty.bps` the comparison with the numeric total
is always a mismatch. -/
def bpsMismatch (royalty : JValue) (total : Int) : Bool :=
  match jprop royalty "bps" with
  | some (.num b) => total ≠ b
  | _ => true

/-- `validateRoyalty` (validator.js lines 272–298). -/
def validateRoyalty (royalty : JValue) : List String :=
  (match jprop royalty "bps" with
   | some (.num b) => if b < 0 ∨ b > 10000 then ["Royalty bps must be 0-10000"] else []
   | _ => ["Royalty bps must be 0-10000"]) ++
  (if jfalsyOpt (jprop royalty "address") then ["Royalty requires address"] else []) ++
  (match jprop royalty "splits" with
   | some (.arr ss) =>
       (splitErrsAux ss 0).1 ++
         (if bpsMismatch royalty (splitErrsAux ss 0).2 then
            ["Royalty splits must sum to total bps"] else [])
   | _ => [])

/-- `validateMetadata` (validator.js lines 117–208): the full error list in
source push order (each block appends its findings), with
`valid = errors.length === 0`. -/
def validateMetadata (m : List (String × JValue)) : Bool × List String :=
  let errs :=
    vVersionErrs m ++ vTypeErrs m ++ vProtoErrs m ++ vNameErrs m ++ vDescErrs m ++
      vTypeSpecificErrs m ++
      (match jget m "content" with
       | some c => if jtruthy c then validateContent c else []
       | none => []) ++
      (match jget m "royalty" with
       | some r => if jtruthy r then validateRoyalty r else []
       | none => [])
  (errs.isEmpty, errs)

/-- The integer sum of the numeric `bps` entries of a splits list (the
running total of the source's `forEach`). -/
def splitSum (ss : List JValue) : Int :=
  (ss.map fun s =>
    match jprop s "bps" with
    | some (.num b) => b
    | _ => 0).sum

/-! ## Structural equality of JSON values up to object key order -/

/-- Structural equality of two JSON values whose objects may list their keys
in different orders: primitives are equal, arrays are element-wise equivalent
in order, and objects have (duplicate-free) key sets that are permutations of
one another with equivalent values at each key. -/
inductive JEquiv : JValue → JValue → Prop where
  | null : JEquiv .null .null
  | bool (b : Bool) : JEquiv (.bool b) (.bool b)
  | num (n : Int) : JEquiv (.num n) (.num n)
  | str (s : String) : JEquiv (.str s) (.str s)
  | arr {xs ys : List JValue} (hlen : xs.length = ys.length)
      (helt : ∀ (i : Nat) (hx : i < xs.length) (hy : i < ys.length),
        JEquiv (xs.get ⟨i, hx⟩) (ys.get ⟨i, hy⟩)) :
      JEquiv (.arr xs) (.arr ys)
  | obj {fs gs : List (String × JValue)}
      (hnd : (fs.map Prod.fst).Nodup) (hnd2 : (gs.map Prod.fst).Nodup)
      (hkeys : (fs.map Prod.fst).Perm (gs.map Prod.fst))
      (hval : ∀ k v w, (k, v) ∈ fs → (k, w) ∈ gs → JEquiv v w) :
      JEquiv (.obj fs) (.obj gs)

/-! # Theorems -/

/-! ## Generic list helpers -/

theorem findSome?_eq_none_iff {α β : Type} (f : α → Option β) (l : List α) :
    l.findSome? f = none ↔ ∀ x ∈ l, f x = none := by
  induction l with
  | nil => simp [List.findSome?]
  | cons a as ih =>
    unfold List.findSome?
    cases h : f a with
    | none => simp [h, ih]
    | some b => simp [h]

theorem readE_append {l rest : List Nat} {n : Nat} (h : l.length = n) :
    readE n (l ++ rest) = .ok (l, rest) := by
  unfold readE
  rw [if_pos (by simp [List.length_append, ← h])]
  rw [List.take_left' h, List.drop_left' h]

theorem readE_exact {l : List Nat} {n : Nat} (h : l.length = n) :
    readE n l = .ok (l, []) := by
  have h2 : readE n (l ++ []) = .ok (l, []) := readE_append h
  simpa using h2

theorem indexOfSeq_isPrefixOf {pat buf : List Nat} {i : Nat}
    (h : indexOfSeq pat buf = some i) : pat.isPrefixOf (buf.drop i) = true := by
  induction buf generalizing i with
  | nil =>
    unfold indexOfSeq at h
    split at h
    · rename_i hp
      cases h
      have : pat = [] := by simpa using hp
      simp [this, List.isPrefixOf]
    · cases h
  | cons b rest ih =>
    unfold indexOfSeq at h
    split at h
    · rename_i hp
      cases h
      simpa using hp
    · cases hr : indexOfSeq pat rest with
      | none => rw [hr] at h; simp at h
      | some j =>
        rw [hr] at h
        simp only [Option.map_some'] at h
        cases h
        simpa [List.drop_succ_cons] using ih hr

theorem indexOfSeq_magic_here (rest : List Nat) :
    indexOfSeq GLYPH_MAGIC (GLYPH_MAGIC ++ rest) = some 0 := by
  simp [GLYPH_MAGIC, indexOfSeq, List.isPrefixOf]

/-! ## C2 — decodeEnvelope never throws -/

/-- C2: for every byte buffer — empty, truncated, garbage, or magic followed
by fewer bytes than a complete header or body requires — `decodeEnvelope`
never propagates a structural read failure: the explicit error-monad
rendering `decodeEnvelopeE` of the source (whose `catch` converts internal
errors to the absent result) always returns `.ok`, i.e. either a parsed
envelope or the absent-envelope result `none`. -/
theorem C2_decodeEnvelope_never_throws (buf : List Nat) :
    ∃ r : Option Envelope, decodeEnvelopeE buf = .ok r := by
  unfold decodeEnvelopeE
  cases indexOfSeq GLYPH_MAGIC buf with
  | none => exact ⟨none, rfl⟩
  | some i =>
    simp only
    split
    · exact ⟨none, rfl⟩
    · rename_i v _
      exact ⟨v, rfl⟩

/-! ## C3 — the literal protocol rule table -/

/-- C3: `validateProtocols` accepts `[1]`, `[2]`, `[1,4]`, `[2,8,9]`,
`[2,5,11]`, `[1,6]` and rejects `[1,2]` (mutual exclusion), `[4]`
(requirement), `[9]`, `[11]`, `[6]`, with protocol IDs FT=1, NFT=2, DMINT=4,
MUT=5, BURN=6, ENCRYPTED=8, TIMELOCK=9, WAVE=11. -/
theorem C3_protocol_rule_table :
    (validateProtocols [1]).valid = true ∧
    (validateProtocols [2]).valid = true ∧
    (validateProtocols [1, 4]).valid = true ∧
    (validateProtocols [2, 8, 9]).valid = true ∧
    (validateProtocols [2, 5, 11]).valid = true ∧
    (validateProtocols [1, 6]).valid = true ∧
    (validateProtocols [1, 2]).valid = false ∧
    (validateProtocols [1, 2]).error =
      some "Fungible Token and Non-Fungible Token are mutually exclusive" ∧
    (validateProtocols [4]).valid = false ∧
    (validateProtocols [4]).error = some "Decentralized Minting requires Fungible Token" ∧
    (validateProtocols [9]).valid = false ∧
    (validateProtocols [11]).valid = false ∧
    (validateProtocols [6]).valid = false := by
  decide

/-! ## C9 — decoding anchors at the first magic occurrence only -/

/-- C9: `decodeEnvelope` anchors at the first occurrence of the magic and
never rescans: whenever the first occurrence (at index `i`) is followed by a
truncated header (fewer than two bytes after the magic) or an unknown
version byte, the result is the absent-envelope result — regardless of what
follows later in the buffer, in particular even when a complete well-formed
envelope begins at a later magic occurrence. -/
theorem C9_first_magic_anchor (buf : List Nat) (i : Nat)
    (hidx : indexOfSeq GLYPH_MAGIC buf = some i)
    (hbad : (buf.drop (i + 3)).length < 2 ∨
      ∃ v, (buf.drop (i + 3)).head? = some v ∧ v ≠ 1 ∧ v ≠ 2) :
    decodeEnvelope buf = none := by
  have hpre := indexOfSeq_isPrefixOf hidx
  have hlen3 : 3 ≤ (buf.drop i).length := by
    have hp : GLYPH_MAGIC <+: buf.drop i := by
      rw [← List.isPrefixOf_iff_prefix]; exact hpre
    simpa [GLYPH_MAGIC] using hp.length_le
  have h3 : readE 3 (buf.drop i) = .ok ((buf.drop i).take 3, buf.drop (i + 3)) := by
    unfold readE
    rw [if_pos hlen3]
    rw [List.drop_drop]
  unfold decodeEnvelope decodeEnvelopeE
  rw [hidx]
  simp only [h3]
  cases hd : buf.drop (i + 3) with
  | nil => simp [readU8]
  | cons v tail =>
    simp only [readU8]
    by_cases hv : v ≠ GlyphVersion_V1 ∧ v ≠ GlyphVersion_V2
    · rw [if_pos hv]
    · rw [if_neg hv]
      rcases hbad with hsh | ⟨w, hw, hw1, hw2⟩
      · have htail : tail = [] := by
          rw [hd] at hsh
          simp only [List.length_cons] at hsh
          have : tail.length = 0 := by omega
          exact List.length_eq_zero.mp this
        subst htail
        simp [readU8]
      · rw [hd] at hw
        simp only [List.head?_cons, Option.some.injEq] at hw
        subst hw
        exact absurd ⟨hw1, hw2⟩ hv

/-- Witness for C9: a buffer whose first magic occurrence is followed by the
unknown version byte `0xff`, while a complete well-formed commit envelope
begins at the second magic occurrence; decoding still yields `none`, and the
later envelope alone would decode. -/
theorem C9_first_magic_anchor_witness :
    decodeEnvelope
      ([0x67, 0x6c, 0x79, 0xff] ++
        ([0x67, 0x6c, 0x79, 2, 0] ++ List.replicate 32 0)) = none ∧
    decodeEnvelope ([0x67, 0x6c, 0x79, 2, 0] ++ List.replicate 32 0) =
      some (.commit 2 0 (List.replicate 32 0) none none) := by
  constructor
  · exact C9_first_magic_anchor _ 0 (by decide)
      (Or.inr ⟨0xff, by decide, by decide, by decide⟩)
  · rfl

/-! ## C1 — commit envelope round trip -/

theorem decodeEnvelope_magic_commit (f : Nat) (rest : List Nat)
    (hf : f &&& IS_REVEAL = 0) :
    decodeEnvelope (GLYPH_MAGIC ++ ([2, f] ++ rest)) =
      match decodeCommitEnvelopeE rest 2 f with
      | .ok env => some env
      | .error _ => none := by
  unfold decodeEnvelope decodeEnvelopeE
  rw [indexOfSeq_magic_here]
  simp only [List.drop_zero]
  rw [readE_append (by simp [GLYPH_MAGIC])]
  simp only [List.cons_append, List.nil_append, readU8]
  rw [if_neg (by simp [GlyphVersion_V1, GlyphVersion_V2])]
  rw [if_neg (by simp [hf])]
  cases hc : decodeCommitEnvelopeE rest 2 f <;> simp [hc, Except.map]

theorem decodeCommitEnvelopeE_plain {H : List Nat} (hH : H.length = 32) :
    decodeCommitEnvelopeE H 2 0 = .ok (.commit 2 0 H none none) := by
  unfold decodeCommitEnvelopeE
  rw [readE_exact hH]
  rfl

theorem decodeCommitEnvelopeE_full {H C K : List Nat}
    (hH : H.length = 32) (hC : C.length = 32) (hK : K.length = 36) :
    decodeCommitEnvelopeE (H ++ (C ++ K)) 2 3 =
      .ok (.commit 2 3 H (some C) (some K)) := by
  unfold decodeCommitEnvelopeE
  have h1 := eq_true (show 3 &&& HAS_CONTENT_ROOT ≠ 0 by decide)
  have h2 := eq_true (show 3 &&& HAS_CONTROLLER ≠ 0 by decide)
  simp only [readE_append hH, readE_append hC, h1, h2, if_true, readE_exact hK]

/-- C1: decoding the buffer produced by `encodeCommitEnvelope` with default
flags 0 recovers the 32-byte commit hash exactly; with a 32-byte content
root and 36-byte controller supplied, the decoded envelope's flags have bit
0 (`HAS_CONTENT_ROOT`) and bit 1 (`HAS_CONTROLLER`) set and both optional
fields round-trip byte for byte. -/
theorem C1_commit_envelope_roundtrip (H C K : List Nat)
    (hH : H.length = 32) (hC : C.length = 32) (hK : K.length = 36) :
    (∃ buf, encodeCommitEnvelope H 0 none none = .ok buf ∧
        decodeEnvelope buf = some (.commit 2 0 H none none)) ∧
    (∃ buf, encodeCommitEnvelope H 0 (some C) (some K) = .ok buf ∧
        decodeEnvelope buf = some (.commit 2 3 H (some C) (some K)) ∧
        3 &&& HAS_CONTENT_ROOT ≠ 0 ∧ 3 &&& HAS_CONTROLLER ≠ 0) := by
  constructor
  · refine ⟨GLYPH_MAGIC ++ ([2, 0] ++ H), ?_, ?_⟩
    · unfold encodeCommitEnvelope
      rw [if_neg (by simp [hH])]
      simp [GlyphVersion_V2, HAS_CONTENT_ROOT, HAS_CONTROLLER]
    · rw [decodeEnvelope_magic_commit 0 H (by decide)]
      rw [decodeCommitEnvelopeE_plain hH]
  · refine ⟨GLYPH_MAGIC ++ ([2, 3] ++ (H ++ (C ++ K))), ?_, ?_, by decide, by decide⟩
    · unfold encodeCommitEnvelope
      rw [if_neg (by simp [hH])]
      simp [GlyphVersion_V2, HAS_CONTENT_ROOT, HAS_CONTROLLER]
    · rw [decodeEnvelope_magic_commit 3 (H ++ (C ++ K)) (by decide)]
      rw [decodeCommitEnvelopeE_full hH hC hK]

/-- Witness for C1 at concrete 32/32/36-byte buffers. -/
theorem C1_commit_envelope_roundtrip_witness :
    (List.replicate 32 7).length = 32 ∧ (List.replicate 32 9).length = 32 ∧
    (List.replicate 36 3).length = 36 ∧
    ((∃ buf, encodeCommitEnvelope (List.replicate 32 7) 0 none none = .ok buf ∧
        decodeEnvelope buf = some (.commit 2 0 (List.replicate 32 7) none none)) ∧
     (∃ buf, encodeCommitEnvelope (List.replicate 32 7) 0
          (some (List.replicate 32 9)) (some (List.replicate 36 3)) = .ok buf ∧
        decodeEnvelope buf = some (.commit 2 3 (List.replicate 32 7)
          (some (List.replicate 32 9)) (some (List.replicate 36 3))) ∧
        3 &&& HAS_CONTENT_ROOT ≠ 0 ∧ 3 &&& HAS_CONTROLLER ≠ 0)) :=
  ⟨by decide, by decide, by decide,
    C1_commit_envelope_roundtrip _ _ _ (by decide) (by decide) (by decide)⟩

/-! ## C6 — reveal envelope size limits and chunk layout -/

theorem pushFiles_ok {files : List (List Nat)}
    (h : ∀ f ∈ files, f.length ≤ MAX_INLINE_FILE_SIZE) :
    pushFiles files = .ok files := by
  induction files with
  | nil => rfl
  | cons f rest ih =>
    unfold pushFiles
    rw [if_neg (by simpa using h f (by simp))]
    rw [ih fun g hg => h g (by simp [hg])]
    rfl

theorem pushFiles_error {files : List (List Nat)}
    (h : ∃ f ∈ files, f.length > MAX_INLINE_FILE_SIZE) :
    ∃ e, pushFiles files = .error e := by
  induction files with
  | nil => simp at h
  | cons f rest ih =>
    unfold pushFiles
    by_cases hf : f.length > MAX_INLINE_FILE_SIZE
    · rw [if_pos hf]
      exact ⟨_, rfl⟩
    · rw [if_neg hf]
      have hr : ∃ g ∈ rest, g.length > MAX_INLINE_FILE_SIZE := by
        rcases h with ⟨g, hg, hgl⟩
        rcases List.mem_cons.mp hg with rfl | hg'
        · exact absurd hgl hf
        · exact ⟨g, hg', hgl⟩
      rcases ih hr with ⟨e, he⟩
      rw [he]
      exact ⟨e, rfl⟩

/-- C6: `encodeRevealEnvelope` throws a size-limit error exactly when the
canonical metadata bytes exceed `MAX_METADATA_SIZE = 262144` or some file
chunk exceeds `MAX_INLINE_FILE_SIZE = 1048576`; when it succeeds the chunk
list is the 5-byte header (magic, version, reveal flag byte), then the
metadata chunk, then one chunk per file in order.  (Success at 262143
metadata bytes is the witness below.) -/
theorem C6_reveal_envelope_limits (mb : List Nat) (files : List (List Nat)) :
    ((∃ e, encodeRevealEnvelope mb files = .error e) ↔
      (mb.length > MAX_METADATA_SIZE ∨
        ∃ f ∈ files, f.length > MAX_INLINE_FILE_SIZE)) ∧
    (mb.length ≤ MAX_METADATA_SIZE →
      (∀ f ∈ files, f.length ≤ MAX_INLINE_FILE_SIZE) →
      encodeRevealEnvelope mb files =
        .ok ((GLYPH_MAGIC ++ [GlyphVersion_V2, IS_REVEAL]) :: mb :: files)) := by
  constructor
  · constructor
    · intro ⟨e, he⟩
      by_contra hno
      push_neg at hno
      obtain ⟨hmb, hfl⟩ := hno
      unfold encodeRevealEnvelope at he
      rw [if_neg (by omega)] at he
      rw [pushFiles_ok hfl] at he
      simp [Except.map] at he
    · intro h
      unfold encodeRevealEnvelope
      rcases h with hmb | hfl
      · rw [if_pos hmb]
        exact ⟨_, rfl⟩
      · by_cases hmb : mb.length > MAX_METADATA_SIZE
        · rw [if_pos hmb]; exact ⟨_, rfl⟩
        · rw [if_neg hmb]
          rcases pushFiles_error hfl with ⟨e, he⟩
          rw [he]
          exact ⟨e, rfl⟩
  · intro hmb hfl
    unfold encodeRevealEnvelope
    rw [if_neg (by omega)]
    rw [pushFiles_ok hfl]
    rfl

/-- Witness for C6: a 262143-byte metadata chunk (one below the limit)
succeeds and produces exactly header, metadata. -/
theorem C6_reveal_envelope_limits_witness :
    (List.replicate 262143 0).length ≤ MAX_METADATA_SIZE ∧
    encodeRevealEnvelope (List.replicate 262143 0) [] =
      .ok [GLYPH_MAGIC ++ [GlyphVersion_V2, IS_REVEAL], List.replicate 262143 0] :=
  ⟨by rw [List.length_replicate]; decide,
    (C6_reveal_envelope_limits (List.replicate 262143 0) []).2
      (by rw [List.length_replicate]; decide) (by intro f hf; cases hf)⟩

/-! ## C4 — validateProtocols: priority order, single error -/

theorem checkStructural_eq_none_iff (ps : List Int) :
    checkStructural ps = none ↔ ruleStructuralOk ps := by
  unfold checkStructural ruleStructuralOk MAX_PROTOCOLS
  split_ifs with h1 h2 <;> simp_all

theorem checkExclusions_eq_none_iff (ps : List Int) :
    checkExclusions ps = none ↔ ruleExclusionOk ps := by
  unfold checkExclusions PROTOCOL_EXCLUSIONS ruleExclusionOk GLYPH_FT GLYPH_NFT
  by_cases h1 : (1 : Int) ∈ ps <;> by_cases h2 : (2 : Int) ∈ ps <;>
    simp [List.findSome?, h1, h2]

theorem checkRequirements_eq_none_iff (ps : List Int) :
    checkRequirements ps = none ↔
      ∀ p ∈ ps, ∀ r ∈ PROTOCOL_REQUIREMENTS p, r ∈ ps := by
  unfold checkRequirements
  rw [findSome?_eq_none_iff]
  constructor
  · intro h p hp r hr
    have h2 := (findSome?_eq_none_iff _ _).mp (h p hp) r hr
    by_cases hm : r ∈ ps
    · exact hm
    · rw [if_neg (by simpa using hm)] at h2
      exact absurd h2 (by simp)
  · intro h p hp
    rw [findSome?_eq_none_iff]
    intro r hr
    rw [if_pos (by simpa using h p hp r hr)]

theorem requirements_table_iff (ps : List Int) :
    (∀ p ∈ ps, ∀ r ∈ PROTOCOL_REQUIREMENTS p, r ∈ ps) ↔ ruleDependencyOk ps := by
  unfold ruleDependencyOk GLYPH_DMINT GLYPH_FT GLYPH_MUT GLYPH_NFT GLYPH_CONTAINER
    GLYPH_ENCRYPTED GLYPH_TIMELOCK GLYPH_AUTHORITY GLYPH_WAVE
  constructor
  · intro h
    exact ⟨fun h4 => h 4 h4 1 (by decide), fun h5 => h 5 h5 2 (by decide),
      fun h7 => h 7 h7 2 (by decide), fun h8 => h 8 h8 2 (by decide),
      fun h9 => h 9 h9 8 (by decide), fun h10 => h 10 h10 2 (by decide),
      fun h11 => ⟨h 11 h11 2 (by decide), h 11 h11 5 (by decide)⟩⟩
  · rintro ⟨d4, d5, d7, d8, d9, d10, d11⟩ p hp r hr
    unfold PROTOCOL_REQUIREMENTS at hr
    split_ifs at hr with h4 h5 h7 h8 h9 h10 h11
    · subst h4; simp at hr; subst hr; exact d4 hp
    · subst h5; simp at hr; subst hr; exact d5 hp
    · subst h7; simp at hr; subst hr; exact d7 hp
    · subst h8; simp at hr; subst hr; exact d8 hp
    · subst h9; simp at hr; subst hr; exact d9 hp
    · subst h10; simp at hr; subst hr; exact d10 hp
    · subst h11; simp at hr
      rcases hr with rfl | rfl
      · exact (d11 hp).1
      · exact (d11 hp).2
    · simp at hr

theorem checkAlone_eq_none_iff (ps : List Int) :
    checkAlone ps = none ↔ ruleAloneOk ps := by
  unfold checkAlone ruleAloneOk
  match ps with
  | [] => simp
  | [p] =>
      by_cases hb : p ∈ PROTOCOLS_REQUIRE_BASE <;>
        simp only [PROTOCOLS_REQUIRE_BASE] at hb <;> simp [hb] <;>
        simp [PROTOCOLS_REQUIRE_BASE, not_or]
  | p :: q :: rest => simp

theorem checkBurn_eq_none_iff (ps : List Int) :
    checkBurn ps = none ↔ ruleBurnOk ps := by
  unfold checkBurn ruleBurnOk GLYPH_BURN GLYPH_FT GLYPH_NFT
  by_cases h6 : (6 : Int) ∈ ps <;> by_cases h1 : (1 : Int) ∈ ps <;>
    by_cases h2 : (2 : Int) ∈ ps <;> simp [h6, h1, h2]

theorem validateProtocols_valid_iff (ps : List Int) :
    (validateProtocols ps).valid = true ↔
      (checkStructural ps = none ∧ checkExclusions ps = none ∧
        checkRequirements ps = none ∧ checkAlone ps = none ∧
        checkBurn ps = none) := by
  unfold validateProtocols
  cases checkStructural ps <;> cases checkExclusions ps <;>
    cases checkRequirements ps <;> cases checkAlone ps <;>
    cases checkBurn ps <;> simp

/-- C4: `validateProtocols` returns a pass/fail result carrying at most one
error message (`valid = true` exactly when the error is absent), accepts
exactly when all five spec rules hold, each stage corresponds exactly to its
spec rule, and evaluation stops at the first violated rule in the fixed
priority order structural → mutual-exclusion → dependency → standalone →
BURN: an input violating several rules reports only the highest-priority
one. -/
theorem C4_validateProtocols_priority (ps : List Int) :
    ((validateProtocols ps).valid = true ↔
      (ruleStructuralOk ps ∧ ruleExclusionOk ps ∧ ruleDependencyOk ps ∧
        ruleAloneOk ps ∧ ruleBurnOk ps)) ∧
    ((validateProtocols ps).error = none ↔ (validateProtocols ps).valid = true) ∧
    (checkStructural ps = none ↔ ruleStructuralOk ps) ∧
    (checkExclusions ps = none ↔ ruleExclusionOk ps) ∧
    (checkRequirements ps = none ↔ ruleDependencyOk ps) ∧
    (checkAlone ps = none ↔ ruleAloneOk ps) ∧
    (checkBurn ps = none ↔ ruleBurnOk ps) ∧
    (¬ruleStructuralOk ps → validateProtocols ps = ⟨false, checkStructural ps⟩) ∧
    (ruleStructuralOk ps → ¬ruleExclusionOk ps →
      validateProtocols ps = ⟨false, checkExclusions ps⟩) ∧
    (ruleStructuralOk ps → ruleExclusionOk ps → ¬ruleDependencyOk ps →
      validateProtocols ps = ⟨false, checkRequirements ps⟩) ∧
    (ruleStructuralOk ps → ruleExclusionOk ps → ruleDependencyOk ps →
      ¬ruleAloneOk ps → validateProtocols ps = ⟨false, checkAlone ps⟩) ∧
    (ruleStructuralOk ps → ruleExclusionOk ps → ruleDependencyOk ps →
      ruleAloneOk ps → ¬ruleBurnOk ps →
      validateProtocols ps = ⟨false, checkBurn ps⟩) := by
  have s1 := checkStructural_eq_none_iff ps
  have s2 := checkExclusions_eq_none_iff ps
  have s3 := (checkRequirements_eq_none_iff ps).trans (requirements_table_iff ps)
  have s4 := checkAlone_eq_none_iff ps
  have s5 := checkBurn_eq_none_iff ps
  refine ⟨?_, ?_, s1, s2, s3, s4, s5, ?_, ?_, ?_, ?_, ?_⟩
  · rw [validateProtocols_valid_iff, s1, s2, s3, s4, s5]
  · unfold validateProtocols
    cases checkStructural ps <;> cases checkExclusions ps <;>
      cases checkRequirements ps <;> cases checkAlone ps <;>
      cases checkBurn ps <;> simp
  · intro h1
    rw [← s1] at h1
    obtain ⟨e, he⟩ := Option.ne_none_iff_exists'.mp h1
    unfold validateProtocols
    rw [he]
  · intro h1 h2
    rw [← s1] at h1
    rw [← s2] at h2
    obtain ⟨e, he⟩ := Option.ne_none_iff_exists'.mp h2
    unfold validateProtocols
    rw [h1, he]
  · intro h1 h2 h3
    rw [← s1] at h1
    rw [← s2] at h2
    rw [← s3] at h3
    obtain ⟨e, he⟩ := Option.ne_none_iff_exists'.mp h3
    unfold validateProtocols
    rw [h1, h2, he]
  · intro h1 h2 h3 h4
    rw [← s1] at h1
    rw [← s2] at h2
    rw [← s3] at h3
    rw [← s4] at h4
    obtain ⟨e, he⟩ := Option.ne_none_iff_exists'.mp h4
    unfold validateProtocols
    rw [h1, h2, h3, he]
  · intro h1 h2 h3 h4 h5
    rw [← s1] at h1
    rw [← s2] at h2
    rw [← s3] at h3
    rw [← s4] at h4
    rw [← s5] at h5
    obtain ⟨e, he⟩ := Option.ne_none_iff_exists'.mp h5
    unfold validateProtocols
    rw [h1, h2, h3, h4, he]

/-- Witness for C4: `[1, 2, 4]` violates both the mutual-exclusion rule and
the dependency rule; only the higher-priority mutual-exclusion error is
reported. -/
theorem C4_validateProtocols_priority_witness :
    validateProtocols [1, 2, 4] = ⟨false, checkExclusions [1, 2, 4]⟩ ∧
    checkExclusions [1, 2, 4] =
      some "Fungible Token and Non-Fungible Token are mutually exclusive" := by
  constructor
  · obtain ⟨-, -, -, -, -, -, -, -, hI, -, -, -⟩ :=
      C4_validateProtocols_priority [1, 2, 4]
    exact hI ⟨by decide, by decide⟩ (fun hno => hno ⟨by decide, by decide⟩)
  · rfl

/-! ## Canonicalization lemmas -/

theorem canonList_eq_map (xs : List JValue) :
    canonList xs = xs.map canonicalizeObject := by
  induction xs with
  | nil => rfl
  | cons x xs ih => simp [canonList, ih]

theorem canonFields_eq_map (fs : List (String × JValue)) :
    canonFields fs = fs.map fun kv => (kv.1, canonicalizeObject kv.2) := by
  induction fs with
  | nil => rfl
  | cons kv fs ih => obtain ⟨k, v⟩ := kv; simp [canonFields, ih]

theorem canonFields_keys (fs : List (String × JValue)) :
    (canonFields fs).map Prod.fst = fs.map Prod.fst := by
  rw [canonFields_eq_map, List.map_map]
  rfl

/-! ## C7 — canonicalize: sorted keys, arrays in order, primitives fixed -/

/-- C7: `canonicalizeObject` maps an object to an object whose bindings are
sorted by key (code-point lexicographic order) and consist of exactly the
original keys each bound to its canonicalized value; an array to the array
of canonicalized elements in order (same length); and `null` and primitives
to themselves. -/
theorem C7_canonicalize_shape (fs : List (String × JValue)) (xs : List JValue)
    (b : Bool) (n : Int) (s : String) :
    (∃ gs, canonicalizeObject (.obj fs) = .obj gs ∧
      List.Sorted fieldLe gs ∧
      (gs.map Prod.fst).Perm (fs.map Prod.fst) ∧
      ∀ k v, (k, v) ∈ fs → (k, canonicalizeObject v) ∈ gs) ∧
    (canonicalizeObject (.arr xs) = .arr (xs.map canonicalizeObject) ∧
      (xs.map canonicalizeObject).length = xs.length) ∧
    (canonicalizeObject .null = .null ∧ canonicalizeObject (.bool b) = .bool b ∧
      canonicalizeObject (.num n) = .num n ∧
      canonicalizeObject (.str s) = .str s) := by
  refine ⟨⟨List.insertionSort fieldLe (canonFields fs), rfl,
      List.sorted_insertionSort _ _, ?_, ?_⟩,
    ⟨?_, by simp⟩, rfl, rfl, rfl, rfl⟩
  · have h2 := (List.perm_insertionSort fieldLe (canonFields fs)).map Prod.fst
    rwa [canonFields_keys] at h2
  · intro k v hkv
    have hm : (k, canonicalizeObject v) ∈ canonFields fs := by
      rw [canonFields_eq_map]
      exact List.mem_map_of_mem _ hkv
    exact ((List.perm_insertionSort fieldLe (canonFields fs)).mem_iff).mpr hm
  · show JValue.arr (canonList xs) = _
    rw [canonList_eq_map]

/-- Witness for C7 at a concrete object, array and primitives (the theorem
has no `Prop` hypotheses; this records a concrete instance). -/
theorem C7_canonicalize_shape_witness :
    canonicalizeObject (.obj [("b", .num 1), ("a", .null)]) =
      .obj [("a", .null), ("b", .num 1)] ∧
    canonicalizeObject (.arr [.num 2, .num 1]) = .arr [.num 2, .num 1] ∧
    canonicalizeObject (.str "z") = .str "z" := by
  refine ⟨?_, rfl, (C7_canonicalize_shape [] [] false 0 "z").2.2.2.2.2⟩
  rfl

/-! ## C10 — encodeMetadata mutates exactly the version field -/

theorem jget_jsSet_self (fs : List (String × JValue)) (k : String) (v : JValue) :
    jget (jsSet fs k v) k = some v := by
  induction fs with
  | nil => simp [jsSet, jget]
  | cons kv rest ih =>
    obtain ⟨k', v'⟩ := kv
    by_cases h : k' = k
    · simp [jsSet, h, jget]
    · simp [jsSet, h, jget, ih]

theorem jget_jsSet_ne (fs : List (String × JValue)) {k k' : String} (v : JValue)
    (hne : k' ≠ k) : jget (jsSet fs k v) k' = jget fs k' := by
  induction fs with
  | nil => simp [jsSet, jget, Ne.symm hne]
  | cons kv rest ih =>
    obtain ⟨k0, v0⟩ := kv
    by_cases h : k0 = k
    · subst h
      simp [jsSet, jget, Ne.symm hne]
    · by_cases h2 : k0 = k'
      · subst h2
        simp [jsSet, h, jget]
      · simp [jsSet, h, jget, h2, ih]

/-- C10: `encodeMetadata` mutates at most the field `v` of its argument —
every other field reads back unchanged — and the mutation (setting `v` to 2)
happens exactly when the existing `v` is absent or falsy, so a
caller-supplied `v` of `0`, `""`, `false` or `null` is overwritten with 2,
not only a missing field; when `v` is truthy the object is left fully
unchanged. -/
theorem C10_encodeMetadata_mutation (fs : List (String × JValue)) :
    (∀ k, k ≠ "v" → jget (encodeMetadata fs).1 k = jget fs k) ∧
    (jfalsyOpt (jget fs "v") = true →
      jget (encodeMetadata fs).1 "v" = some (.num 2)) ∧
    (jfalsyOpt (jget fs "v") = false → (encodeMetadata fs).1 = fs) := by
  have h1 : (encodeMetadata fs).1 = mutateVersion fs := rfl
  rw [h1]
  unfold mutateVersion
  by_cases hf : jfalsyOpt (jget fs "v") = true
  · rw [if_pos hf]
    exact ⟨fun k hk => jget_jsSet_ne fs _ hk,
      fun _ => jget_jsSet_self fs "v" (.num 2), fun h => absurd hf (by simp [h])⟩
  · rw [if_neg hf]
    exact ⟨fun _ _ => rfl, fun h => absurd h hf, fun _ => rfl⟩

/-- Witness for C10: a falsy caller-supplied `v = 0` is overwritten with 2
while the other field is untouched. -/
theorem C10_encodeMetadata_mutation_witness :
    jfalsyOpt (jget [("v", JValue.num 0), ("name", JValue.str "x")] "v") = true ∧
    jget (encodeMetadata [("v", JValue.num 0), ("name", JValue.str "x")]).1 "v" =
      some (.num 2) ∧
    jget (encodeMetadata [("v", JValue.num 0), ("name", JValue.str "x")]).1 "name" =
      jget [("v", JValue.num 0), ("name", JValue.str "x")] "name" :=
  ⟨rfl,
    (C10_encodeMetadata_mutation [("v", .num 0), ("name", .str "x")]).2.1 rfl,
    (C10_encodeMetadata_mutation [("v", .num 0), ("name", .str "x")]).1 "name"
      (by decide)⟩

/-! ## C5 — canonical bytes and commit hash are key-order independent -/

theorem char_toNat_injective : Function.Injective Char.toNat :=
  StrictMono.injective fun _ _ h => h

theorem keyNats_injective : Function.Injective keyNats := by
  intro s t h
  exact String.ext (List.map_injective_iff.mpr char_toNat_injective h)

/-- Two association lists with the same duplicate-free key multiset and equal
values at equal keys are permutations of each other. -/
theorem assoc_perm : ∀ {l₁ l₂ : List (String × JValue)},
    (l₁.map Prod.fst).Nodup →
    (l₁.map Prod.fst).Perm (l₂.map Prod.fst) →
    (∀ k v w, (k, v) ∈ l₁ → (k, w) ∈ l₂ → v = w) →
    l₁.Perm l₂ := by
  intro l₁
  induction l₁ with
  | nil =>
    intro l₂ _ hkeys _
    have h0 : l₂ = [] := List.map_eq_nil.mp (hkeys.symm.eq_nil)
    rw [h0]
  | cons p rest ih =>
    intro l₂ hnd hkeys hval
    obtain ⟨k, v⟩ := p
    have hk2 : k ∈ l₂.map Prod.fst := hkeys.mem_iff.mp (by simp)
    obtain ⟨⟨k', w⟩, hmem, hfst⟩ := List.mem_map.mp hk2
    simp only at hfst
    have hke : k = k' := hfst.symm
    subst hke
    obtain ⟨pre, suf, rfl⟩ := List.append_of_mem hmem
    have hvw : v = w := hval k v w (List.mem_cons_self _ _) hmem
    subst hvw
    have hperm2 : (pre ++ (k, v) :: suf).Perm ((k, v) :: (pre ++ suf)) :=
      List.perm_middle
    have hkeys' : (rest.map Prod.fst).Perm ((pre ++ suf).map Prod.fst) := by
      have h2 := hkeys.trans (hperm2.map Prod.fst)
      simp only [List.map_cons] at h2
      exact h2.cons_inv
    have hnd' : (rest.map Prod.fst).Nodup := by
      simp only [List.map_cons, List.nodup_cons] at hnd
      exact hnd.2
    have hval' : ∀ k₁ v₁ w₁, (k₁, v₁) ∈ rest → (k₁, w₁) ∈ pre ++ suf → v₁ = w₁ := by
      intro k₁ v₁ w₁ h1 h2
      apply hval k₁ v₁ w₁ (List.mem_cons_of_mem _ h1)
      rcases List.mem_append.mp h2 with hpre | hsuf
      · exact List.mem_append.mpr (Or.inl hpre)
      · exact List.mem_append.mpr (Or.inr (List.mem_cons_of_mem _ hsuf))
    exact ((ih hnd' hkeys' hval').cons (k, v)).trans hperm2.symm

/-- Sorting by key is a function of the underlying binding multiset once the
keys are duplicate-free. -/
theorem insertionSort_eq_of_perm {l₁ l₂ : List (String × JValue)}
    (hperm : l₁.Perm l₂) (hnd : (l₁.map Prod.fst).Nodup) :
    List.insertionSort fieldLe l₁ = List.insertionSort fieldLe l₂ := by
  have hp : (List.insertionSort fieldLe l₁).Perm (List.insertionSort fieldLe l₂) :=
    (List.perm_insertionSort _ _).trans (hperm.trans (List.perm_insertionSort _ _).symm)
  haveI : IsAntisymm (String × JValue) (fun p q => keyNats p.1 < keyNats q.1) :=
    ⟨fun _ _ h1 h2 => ((lt_asymm h1) h2).elim⟩
  have hsort : ∀ (l : List (String × JValue)), (l.map Prod.fst).Nodup →
      List.Sorted (fun p q => keyNats p.1 < keyNats q.1)
        (List.insertionSort fieldLe l) := by
    intro l hl
    have h1 : List.Pairwise fieldLe (List.insertionSort fieldLe l) :=
      List.sorted_insertionSort _ _
    have hnd2 : ((List.insertionSort fieldLe l).map Prod.fst).Nodup :=
      (((List.perm_insertionSort fieldLe l).map Prod.fst).nodup_iff).mpr hl
    have h2 : (List.insertionSort fieldLe l).Pairwise fun p q => p.1 ≠ q.1 :=
      List.pairwise_map.mp hnd2
    exact (h1.and h2).imp fun hpq =>
      lt_of_le_of_ne hpq.1 fun he => hpq.2 (keyNats_injective he)
  exact List.eq_of_perm_of_sorted hp (hsort l₁ hnd)
    (hsort l₂ (((hperm.map Prod.fst).nodup_iff).mp hnd))

/-- Canonicalization is invariant under structural equality up to object key
order. -/
theorem canon_eq_of_jequiv {a b : JValue} (h : JEquiv a b) :
    canonicalizeObject a = canonicalizeObject b := by
  induction h with
  | null => rfl
  | bool b => rfl
  | num n => rfl
  | str s => rfl
  | arr hlen helt ih =>
    show JValue.arr (canonList _) = JValue.arr (canonList _)
    congr 1
    rw [canonList_eq_map, canonList_eq_map]
    apply List.ext_get (by simpa using hlen)
    intro i h1 h2
    rw [List.get_map, List.get_map]
    exact ih i _ _
  | obj hnd hnd2 hkeys hval ih =>
    show JValue.obj (List.insertionSort fieldLe (canonFields _)) =
      JValue.obj (List.insertionSort fieldLe (canonFields _))
    congr 1
    apply insertionSort_eq_of_perm
    · apply assoc_perm
      · rw [canonFields_keys]; exact hnd
      · rw [canonFields_keys, canonFields_keys]; exact hkeys
      · intro k v' w' h1 h2
        rw [canonFields_eq_map] at h1 h2
        obtain ⟨⟨k1, v⟩, hv, hveq⟩ := List.mem_map.mp h1
        obtain ⟨⟨k2, w⟩, hw, hweq⟩ := List.mem_map.mp h2
        obtain ⟨hk1, hv1⟩ : k1 = k ∧ canonicalizeObject v = v' := by
          simpa using hveq
        obtain ⟨hk2, hv2⟩ : k2 = k ∧ canonicalizeObject w = w' := by
          simpa using hweq
        subst hv1
        subst hv2
        exact ih k v w (hk1 ▸ hv) (hk2 ▸ hw)
    · rw [canonFields_keys]; exact hnd

theorem jget_eq_none_iff (fs : List (String × JValue)) (k : String) :
    jget fs k = none ↔ k ∉ fs.map Prod.fst := by
  induction fs with
  | nil => simp [jget]
  | cons kv rest ih =>
    obtain ⟨k', v⟩ := kv
    by_cases h : k' = k
    · subst h; simp [jget]
    · simp [jget, h, ih, Ne.symm h]

theorem jget_some_mem {fs : List (String × JValue)} {k : String} {v : JValue}
    (h : jget fs k = some v) : (k, v) ∈ fs := by
  induction fs with
  | nil => simp [jget] at h
  | cons kv rest ih =>
    obtain ⟨k', v'⟩ := kv
    by_cases he : k' = k
    · subst he
      simp [jget] at h
      simp [h]
    · simp [jget, he] at h
      exact List.mem_cons_of_mem _ (ih h)

theorem jget_mem_keys {fs : List (String × JValue)} {k : String}
    (h : k ∈ fs.map Prod.fst) : ∃ v, jget fs k = some v := by
  cases hj : jget fs k with
  | none => exact absurd h ((jget_eq_none_iff fs k).mp hj)
  | some v => exact ⟨v, rfl⟩

theorem jtruthy_eq_of_jequiv {v w : JValue} (h : JEquiv v w) :
    jtruthy v = jtruthy w := by
  cases h <;> rfl

theorem keys_jsSet (fs : List (String × JValue)) (k : String) (v : JValue) :
    (jsSet fs k v).map Prod.fst =
      if k ∈ fs.map Prod.fst then fs.map Prod.fst
      else fs.map Prod.fst ++ [k] := by
  induction fs with
  | nil => simp [jsSet]
  | cons kv rest ih =>
    obtain ⟨k', v'⟩ := kv
    by_cases h : k' = k
    · subst h; simp [jsSet]
    · rw [show jsSet ((k', v') :: rest) k v = (k', v') :: jsSet rest k v from by
        simp [jsSet, h]]
      by_cases h2 : k ∈ rest.map Prod.fst <;> simp [ih, h2, Ne.symm h]

theorem mem_jsSet_key {fs : List (String × JValue)} {k : String} {x v : JValue}
    (hnd : (fs.map Prod.fst).Nodup) :
    ((k, x) ∈ jsSet fs k v ↔ x = v) := by
  induction fs with
  | nil => simp [jsSet]
  | cons kv rest ih =>
    obtain ⟨k', v'⟩ := kv
    simp only [List.map_cons, List.nodup_cons] at hnd
    by_cases h : k' = k
    · subst h
      rw [show jsSet ((k', v') :: rest) k' v = (k', v) :: rest from by simp [jsSet]]
      constructor
      · intro hm
        rcases List.mem_cons.mp hm with he | hm2
        · simpa using he
        · exact absurd (List.mem_map_of_mem Prod.fst hm2) hnd.1
      · rintro rfl
        exact List.mem_cons_self _ _
    · rw [show jsSet ((k', v') :: rest) k v = (k', v') :: jsSet rest k v from by
        simp [jsSet, h]]
      constructor
      · intro hm
        rcases List.mem_cons.mp hm with he | hm2
        · exact absurd (congrArg Prod.fst he) (by simpa using Ne.symm h)
        · exact (ih hnd.2).mp hm2
      · intro hx
        exact List.mem_cons_of_mem _ ((ih hnd.2).mpr hx)

theorem mem_jsSet_ne {fs : List (String × JValue)} {k k' : String}
    {x v : JValue} (hne : k' ≠ k) :
    ((k', x) ∈ jsSet fs k v ↔ (k', x) ∈ fs) := by
  induction fs with
  | nil => simp [jsSet, hne]
  | cons kv rest ih =>
    obtain ⟨k0, v0⟩ := kv
    by_cases h : k0 = k
    · subst h
      rw [show jsSet ((k0, v0) :: rest) k0 v = (k0, v) :: rest from by simp [jsSet]]
      simp [hne]
    · rw [show jsSet ((k0, v0) :: rest) k v = (k0, v0) :: jsSet rest k v from by
        simp [jsSet, h]]
      simp [ih]

/-- The version-defaulting mutation of `encodeMetadata` preserves structural
equality up to key order. -/
theorem mutateVersion_equiv {fs gs : List (String × JValue)}
    (h : JEquiv (.obj fs) (.obj gs)) :
    JEquiv (.obj (mutateVersion fs)) (.obj (mutateVersion gs)) := by
  cases h with
  | obj hnd hnd2 hkeys hval =>
    have hfalsy : jfalsyOpt (jget fs "v") = jfalsyOpt (jget gs "v") := by
      cases hv : jget fs "v" with
      | none =>
        have h1 : "v" ∉ fs.map Prod.fst := (jget_eq_none_iff fs "v").mp hv
        have h2 : "v" ∉ gs.map Prod.fst := fun hm => h1 (hkeys.mem_iff.mpr hm)
        rw [(jget_eq_none_iff gs "v").mpr h2]
      | some v =>
        have hmf := jget_some_mem hv
        have hkg : "v" ∈ gs.map Prod.fst :=
          hkeys.mem_iff.mp (List.mem_map_of_mem Prod.fst hmf)
        obtain ⟨w, hw⟩ := jget_mem_keys hkg
        have hmg := jget_some_mem hw
        rw [hw]
        simp [jfalsyOpt, jtruthy_eq_of_jequiv (hval "v" v w hmf hmg)]
    have hmemiff : "v" ∈ fs.map Prod.fst ↔ "v" ∈ gs.map Prod.fst := hkeys.mem_iff
    unfold mutateVersion
    by_cases hf : jfalsyOpt (jget fs "v") = true
    · rw [if_pos hf, if_pos (hfalsy.symm.trans hf)]
      apply JEquiv.obj
      · rw [keys_jsSet]
        by_cases hm : "v" ∈ fs.map Prod.fst
        · rwa [if_pos hm]
        · rw [if_neg hm]
          refine List.Nodup.append hnd (List.nodup_singleton _) ?_
          intro a ha hb
          simp only [List.mem_singleton] at hb
          subst hb
          exact hm ha
      · rw [keys_jsSet]
        by_cases hm : "v" ∈ gs.map Prod.fst
        · rwa [if_pos hm]
        · rw [if_neg hm]
          refine List.Nodup.append hnd2 (List.nodup_singleton _) ?_
          intro a ha hb
          simp only [List.mem_singleton] at hb
          subst hb
          exact hm ha
      · rw [keys_jsSet, keys_jsSet]
        by_cases hm : "v" ∈ fs.map Prod.fst
        · rw [if_pos hm, if_pos (hmemiff.mp hm)]
          exact hkeys
        · rw [if_neg hm, if_neg fun hmg => hm (hmemiff.mpr hmg)]
          exact hkeys.append_right ["v"]
      · intro k v w h1 h2
        by_cases hk : k = "v"
        · subst hk
          rw [mem_jsSet_key hnd] at h1
          rw [mem_jsSet_key hnd2] at h2
          subst h1; subst h2
          exact JEquiv.num 2
        · rw [mem_jsSet_ne hk] at h1
          rw [mem_jsSet_ne hk] at h2
          exact hval k v w h1 h2
    · rw [if_neg hf, if_neg fun hb => hf (hfalsy.trans hb)]
      exact JEquiv.obj hnd hnd2 hkeys hval

/-- C5: for structurally-equal metadata objects whose keys are listed in
different orders, `encodeMetadata` produces identical byte sequences and
`computeCommitHash` identical 32-byte digests; and for every metadata object
`computeCommitHash` of the object equals `computeCommitHash` of the raw
`encodeMetadata` bytes. -/
theorem C5_canonical_bytes_key_order (fs gs : List (String × JValue))
    (h : JEquiv (.obj fs) (.obj gs)) :
    (encodeMetadata fs).2 = (encodeMetadata gs).2 ∧
    computeCommitHash (.obj fs) = computeCommitHash (.obj gs) ∧
    (computeCommitHash (.obj fs)).length = 32 ∧
    ∀ hs : List (String × JValue),
      computeCommitHash (.obj hs) = computeCommitHash (.buf (encodeMetadata hs).2) := by
  have hc := canon_eq_of_jequiv (mutateVersion_equiv h)
  have hbytes : (encodeMetadata fs).2 = (encodeMetadata gs).2 := by
    show utf8Bytes (stringifyJ (canonicalizeObject (.obj (mutateVersion fs)))) =
      utf8Bytes (stringifyJ (canonicalizeObject (.obj (mutateVersion gs))))
    rw [hc]
  refine ⟨hbytes, ?_, ?_, fun hs => rfl⟩
  · show sha256M (encodeMetadata fs).2 = sha256M (encodeMetadata gs).2
    rw [hbytes]
  · show (sha256M (encodeMetadata fs).2).length = 32
    unfold sha256M
    simp

/-- Witness for C5: two concrete two-field objects differing only in key
order produce identical canonical bytes. -/
theorem C5_canonical_bytes_key_order_witness :
    JEquiv (.obj [("b", .num 1), ("a", .null)])
      (.obj [("a", .null), ("b", .num 1)]) ∧
    (encodeMetadata [("b", .num 1), ("a", .null)]).2 =
      (encodeMetadata [("a", .null), ("b", .num 1)]).2 := by
  have he : JEquiv (.obj [("b", JValue.num 1), ("a", JValue.null)])
      (.obj [("a", JValue.null), ("b", JValue.num 1)]) := by
    apply JEquiv.obj
    · decide
    · decide
    · exact List.Perm.swap "a" "b" []
    · intro k v w h1 h2
      simp only [List.mem_cons, List.not_mem_nil, or_false] at h1 h2
      rcases h1 with h1 | h1 <;> rcases h2 with h2 | h2 <;>
        injection h1 with hk1 hv1 <;> injection h2 with hk2 hv2 <;>
        subst hv1 <;> subst hv2 <;>
        first
          | exact JEquiv.num 1
          | exact JEquiv.null
          | exact absurd (hk1.symm.trans hk2) (by decide)
  exact ⟨he, (C5_canonical_bytes_key_order _ _ he).1⟩

/-! ## C8 — royalty splits-sum, range and address checks -/

theorem head_append_ne {a : String} (b : String) {c : Char}
    (ha : a.data.head? ≠ some c) (hne : a.data ≠ []) :
    (a ++ b).data.head? ≠ some c := by
  rw [String.data_append]
  cases hd : a.data with
  | nil => exact absurd hd hne
  | cons x xs =>
    rw [hd] at ha
    simpa using ha

theorem checkStructural_head {ps : List Int} {e : String}
    (h : checkStructural ps = some e) : e.data.head? ≠ some 'R' := by
  unfold checkStructural at h
  split_ifs at h <;> (simp only [Option.some.injEq] at h; subst h; decide)

theorem checkExclusions_head {ps : List Int} {e : String}
    (h : checkExclusions ps = some e) : e.data.head? ≠ some 'R' := by
  unfold checkExclusions PROTOCOL_EXCLUSIONS at h
  simp only [List.findSome?] at h
  split at h
  · rename_i b heq
    split_ifs at heq
    simp only [Option.some.injEq] at heq h
    subst heq
    subst h
    decide
  · simp at h

theorem checkRequirements_head {ps : List Int} {e : String}
    (h : checkRequirements ps = some e) : e.data.head? ≠ some 'R' := by
  unfold checkRequirements at h
  obtain ⟨p, -, hp⟩ := List.exists_of_findSome?_eq_some h
  obtain ⟨r, hrmem, hr⟩ := List.exists_of_findSome?_eq_some hp
  split_ifs at hr
  simp only [Option.some.injEq] at hr
  subst hr
  unfold PROTOCOL_REQUIREMENTS at hrmem
  split_ifs at hrmem with h4 h5 h7 h8 h9 h10 h11
  · subst h4; simp at hrmem; subst hrmem; decide
  · subst h5; simp at hrmem; subst hrmem; decide
  · subst h7; simp at hrmem; subst hrmem; decide
  · subst h8; simp at hrmem; subst hrmem; decide
  · subst h9; simp at hrmem; subst hrmem; decide
  · subst h10; simp at hrmem; subst hrmem; decide
  · subst h11
    simp at hrmem
    rcases hrmem with rfl | rfl <;> decide
  · simp at hrmem

theorem checkAlone_head {ps : List Int} {e : String}
    (h : checkAlone ps = some e) : e.data.head? ≠ some 'R' := by
  unfold checkAlone at h
  split at h
  · rename_i p
    split_ifs at h with hb
    simp only [Option.some.injEq] at h
    subst h
    simp only [PROTOCOLS_REQUIRE_BASE] at hb
    have hb2 : p ∈ ([4, 5, 6, 7, 8, 9, 10, 11] : List Int) := by simpa using hb
    simp only [List.mem_cons, List.not_mem_nil, or_false] at hb2
    rcases hb2 with rfl | rfl | rfl | rfl | rfl | rfl | rfl | rfl <;> decide
  · simp at h

theorem checkBurn_head {ps : List Int} {e : String}
    (h : checkBurn ps = some e) : e.data.head? ≠ some 'R' := by
  unfold checkBurn at h
  split_ifs at h
  simp only [Option.some.injEq] at h
  subst h
  decide

theorem validateProtocols_error_head {ps : List Int} {e : String}
    (h : (validateProtocols ps).error = some e) : e.data.head? ≠ some 'R' := by
  unfold validateProtocols at h
  cases h1 : checkStructural ps with
  | some e1 =>
    rw [h1] at h
    simp at h
    subst h
    exact checkStructural_head h1
  | none =>
  rw [h1] at h
  cases h2 : checkExclusions ps with
  | some e2 =>
    rw [h2] at h
    simp at h
    subst h
    exact checkExclusions_head h2
  | none =>
  rw [h2] at h
  cases h3 : checkRequirements ps with
  | some e3 =>
    rw [h3] at h
    simp at h
    subst h
    exact checkRequirements_head h3
  | none =>
  rw [h3] at h
  cases h4 : checkAlone ps with
  | some e4 =>
    rw [h4] at h
    simp at h
    subst h
    exact checkAlone_head h4
  | none =>
  rw [h4] at h
  cases h5 : checkBurn ps with
  | some e5 =>
    rw [h5] at h
    simp at h
    subst h
    exact checkBurn_head h5
  | none =>
  rw [h5] at h
  simp at h

theorem vVersionErrs_head {m : List (String × JValue)} {e : String}
    (he : e ∈ vVersionErrs m) : e.data.head? ≠ some 'R' := by
  unfold vVersionErrs at he
  split at he <;> simp at he <;> subst he <;> decide

theorem vTypeErrs_head {m : List (String × JValue)} {e : String}
    (he : e ∈ vTypeErrs m) : e.data.head? ≠ some 'R' := by
  unfold vTypeErrs at he
  split at he
  · split_ifs at he <;> simp at he <;> subst he <;> decide
  · simp at he
    subst he
    decide

theorem vProtoErrs_head {m : List (String × JValue)} {e : String}
    (he : e ∈ vProtoErrs m) : e.data.head? ≠ some 'R' := by
  unfold vProtoErrs at he
  split at he
  · split_ifs at he
    · simp at he
    · simp only [Option.toList, Option.mem_def] at he
      split at he
      · simp at he
      · rename_i e1 heq
        simp at he
        subst he
        exact validateProtocols_error_head heq
  · simp at he
    subst he
    decide

theorem vNameErrs_head {m : List (String × JValue)} {e : String}
    (he : e ∈ vNameErrs m) : e.data.head? ≠ some 'R' := by
  unfold vNameErrs at he
  split at he
  · split_ifs at he <;> simp at he <;> subst he <;> decide
  · simp at he

theorem vDescErrs_head {m : List (String × JValue)} {e : String}
    (he : e ∈ vDescErrs m) : e.data.head? ≠ some 'R' := by
  unfold vDescErrs at he
  split at he
  · split_ifs at he <;> simp at he <;> subst he <;> decide
  · simp at he

theorem vTypeSpecificErrs_head {m : List (String × JValue)} {e : String}
    (he : e ∈ vTypeSpecificErrs m) : e.data.head? ≠ some 'R' := by
  unfold vTypeSpecificErrs at he
  split at he
  · simp only [List.mem_append] at he
    rcases he with ((((he | he) | he) | he) | he) | he <;>
      (split_ifs at he <;> simp at he <;> subst he <;> decide)
  · simp at he

theorem head_append2 {a : String} (b c : String) {ch : Char}
    (ha : a.data.head? ≠ some ch) (hne : a.data ≠ []) :
    ((a ++ b) ++ c).data.head? ≠ some ch := by
  rw [String.append_assoc]
  exact head_append_ne _ ha hne

theorem head_append3 {a : String} (b c d : String) {ch : Char}
    (ha : a.data.head? ≠ some ch) (hne : a.data ≠ []) :
    (((a ++ b) ++ c) ++ d).data.head? ≠ some ch := by
  rw [String.append_assoc, String.append_assoc]
  exact head_append_ne _ ha hne

theorem validateContentFile_mem {f : JValue} {path : String} {e : String}
    (he : e ∈ validateContentFile f path) : ∃ t, e = path ++ t := by
  unfold validateContentFile at he
  simp only [List.mem_append] at he
  rcases he with ((he | he) | he) | he
  · split_ifs at he
    · simp at he; subst he; exact ⟨_, rfl⟩
    · split at he
      · split_ifs at he
        · simp at he; subst he; exact ⟨_, rfl⟩
        · simp at he
      · simp at he
  · split_ifs at he
    · simp at he; subst he; exact ⟨_, rfl⟩
    · split at he
      · split_ifs at he
        · simp at he; subst he; exact ⟨_, rfl⟩
        · simp at he
      · simp at he
  · split at he
    · simp at he
    · simp at he; subst he; exact ⟨_, rfl⟩
  · split_ifs at he
    · simp at he; subst he; exact ⟨_, rfl⟩
    · simp at he

theorem vContentFilesAux_head {files : List JValue} {i : Nat} {e : String}
    (he : e ∈ vContentFilesAux files i) : e.data.head? ≠ some 'R' := by
  induction files generalizing i with
  | nil => simp [vContentFilesAux] at he
  | cons f rest ih =>
    unfold vContentFilesAux at he
    rcases List.mem_append.mp he with he | he
    · obtain ⟨t, rfl⟩ := validateContentFile_mem he
      exact head_append3 _ _ _ (by decide) (by decide)
    · exact ih he

theorem vContentRefsAux_head {refs : List JValue} {i : Nat} {e : String}
    (he : e ∈ vContentRefsAux refs i) : e.data.head? ≠ some 'R' := by
  induction refs generalizing i with
  | nil => simp [vContentRefsAux] at he
  | cons f rest ih =>
    unfold vContentRefsAux at he
    simp only [List.mem_append] at he
    rcases he with (he | he) | he
    · obtain ⟨t, rfl⟩ := validateContentFile_mem he
      exact head_append3 _ _ _ (by decide) (by decide)
    · split_ifs at he
      · simp at he
        subst he
        exact head_append2 _ _ (by decide) (by decide)
      · simp at he
    · exact ih he

theorem validateContent_head {c : JValue} {e : String}
    (he : e ∈ validateContent c) : e.data.head? ≠ some 'R' := by
  unfold validateContent at he
  simp only [List.mem_append] at he
  rcases he with (he | he) | he
  · split_ifs at he
    · simp at he
    · obtain ⟨t, rfl⟩ := validateContentFile_mem he
      exact head_append_ne _ (by decide) (by decide)
  · split at he
    · exact vContentFilesAux_head he
    · simp at he
  · split at he
    · exact vContentRefsAux_head he
    · simp at he

theorem splitErrsAux_total (ss : List JValue) (i : Nat) :
    (splitErrsAux ss i).2 = splitSum ss := by
  induction ss generalizing i with
  | nil => rfl
  | cons s rest ih =>
    simp only [splitErrsAux]
    rw [ih]
    unfold splitSum
    rw [List.map_cons, List.sum_cons]

theorem splitErrsAux_mem {ss : List JValue} {i : Nat} {e : String}
    (he : e ∈ (splitErrsAux ss i).1) : ∃ t, e = "royalty.splits[" ++ t := by
  induction ss generalizing i with
  | nil => simp [splitErrsAux] at he
  | cons s rest ih =>
    simp only [splitErrsAux, List.mem_append] at he
    rcases he with (he | he) | he
    · split_ifs at he
      · simp at he
        subst he
        exact ⟨_, String.append_assoc _ _ _⟩
      · simp at he
    · split at he
      · simp at he
      · simp at he
        subst he
        exact ⟨_, String.append_assoc _ _ _⟩
    · exact ih he

theorem validateMetadata_errs (m : List (String × JValue)) :
    (validateMetadata m).2 =
      vVersionErrs m ++ vTypeErrs m ++ vProtoErrs m ++ vNameErrs m ++ vDescErrs m ++
        vTypeSpecificErrs m ++
        (match jget m "content" with
         | some c => if jtruthy c then validateContent c else []
         | none => []) ++
        (match jget m "royalty" with
         | some r => if jtruthy r then validateRoyalty r else []
         | none => []) := rfl

theorem validateRoyalty_iffs {rf : List (String × JValue)} {ss : List JValue} {b : Int}
    (hs : jget rf "splits" = some (.arr ss))
    (hb : jget rf "bps" = some (.num b)) :
    (("Royalty splits must sum to total bps" ∈ validateRoyalty (.obj rf)) ↔
      splitSum ss ≠ b) ∧
    (("Royalty bps must be 0-10000" ∈ validateRoyalty (.obj rf)) ↔
      (b < 0 ∨ b > 10000)) ∧
    (("Royalty requires address" ∈ validateRoyalty (.obj rf)) ↔
      jfalsyOpt (jget rf "address") = true) := by
  have hb' : jprop (.obj rf) "bps" = some (.num b) := hb
  have hs' : jprop (.obj rf) "splits" = some (.arr ss) := hs
  have hmis : bpsMismatch (.obj rf) (splitErrsAux ss 0).2 = decide (splitSum ss ≠ b) := by
    unfold bpsMismatch
    rw [hb', splitErrsAux_total]
  unfold validateRoyalty
  rw [hb', hs']
  simp only []
  rw [hmis]
  simp only [List.mem_append]
  refine ⟨⟨?_, ?_⟩, ⟨?_, ?_⟩, ⟨?_, ?_⟩⟩
  · rintro ((h | h) | h | h)
    · split_ifs at h
      · simp at h
      · simp at h
    · split_ifs at h
      · simp at h
      · simp at h
    · obtain ⟨t, ht⟩ := splitErrsAux_mem h
      have h1 : ("royalty.splits[" ++ t).data.head? ≠ some 'R' :=
        head_append_ne t (by decide) (by decide)
      rw [← ht] at h1
      exact absurd rfl h1
    · split_ifs at h with hc
      · exact of_decide_eq_true hc
      · simp at h
  · intro hsum
    refine Or.inr (Or.inr ?_)
    rw [if_pos (decide_eq_true hsum)]
    simp
  · rintro ((h | h) | h | h)
    · split_ifs at h with hc
      · exact hc
      · simp at h
    · split_ifs at h
      · simp at h
      · simp at h
    · obtain ⟨t, ht⟩ := splitErrsAux_mem h
      have h1 : ("royalty.splits[" ++ t).data.head? ≠ some 'R' :=
        head_append_ne t (by decide) (by decide)
      rw [← ht] at h1
      exact absurd rfl h1
    · split_ifs at h
      · simp at h
      · simp at h
  · intro hrange
    refine Or.inl (Or.inl ?_)
    rw [if_pos hrange]
    simp
  · rintro ((h | h) | h | h)
    · split_ifs at h
      · simp at h
      · simp at h
    · split_ifs at h with hc
      · exact hc
      · simp at h
    · obtain ⟨t, ht⟩ := splitErrsAux_mem h
      have h1 : ("royalty.splits[" ++ t).data.head? ≠ some 'R' :=
        head_append_ne t (by decide) (by decide)
      rw [← ht] at h1
      exact absurd rfl h1
    · split_ifs at h
      · simp at h
      · simp at h
  · intro haddr
    refine Or.inl (Or.inr ?_)
    rw [if_pos (show jfalsyOpt (jprop (.obj rf) "address") = true from haddr)]
    simp

/-- C8: for metadata whose royalty object carries a numeric `bps`, a
present `splits` array and numeric per-split `bps` values, `validateMetadata`
reports the splits-sum violation exactly when the integer sum of the splits'
`bps` differs from `royalty.bps` (accepting equality, including an empty
splits list against `bps = 0`); independently it reports the range violation
exactly when `bps` lies outside `[0, 10000]` and the address violation
exactly when `royalty.address` is absent or falsy. -/
theorem C8_royalty_splits_sum (m : List (String × JValue)) (r : JValue)
    (ss : List JValue) (b : Int)
    (hr : jget m "royalty" = some r)
    (hs : jprop r "splits" = some (.arr ss))
    (hb : jprop r "bps" = some (.num b))
    (_hnum : ∀ s ∈ ss, ∃ sb : Int, jprop s "bps" = some (.num sb)) :
    (("Royalty splits must sum to total bps" ∈ (validateMetadata m).2) ↔
      splitSum ss ≠ b) ∧
    (("Royalty bps must be 0-10000" ∈ (validateMetadata m).2) ↔
      (b < 0 ∨ b > 10000)) ∧
    (("Royalty requires address" ∈ (validateMetadata m).2) ↔
      jfalsyOpt (jprop r "address") = true) := by
  obtain ⟨rf, rfl⟩ : ∃ rf, r = .obj rf := by
    cases r <;> first | exact ⟨_, rfl⟩ | simp [jprop] at hs
  have hmem : ∀ t : String, t.data.head? = some 'R' →
      (t ∈ (validateMetadata m).2 ↔ t ∈ validateRoyalty (.obj rf)) := by
    intro t ht
    rw [validateMetadata_errs, hr]
    simp only []
    rw [if_pos (show jtruthy (.obj rf) = true from rfl)]
    simp only [List.mem_append]
    constructor
    · rintro (((((((h | h) | h) | h) | h) | h) | h) | h)
      · exact absurd ht (vVersionErrs_head h)
      · exact absurd ht (vTypeErrs_head h)
      · exact absurd ht (vProtoErrs_head h)
      · exact absurd ht (vNameErrs_head h)
      · exact absurd ht (vDescErrs_head h)
      · exact absurd ht (vTypeSpecificErrs_head h)
      · exfalso
        revert h
        split
        · split_ifs
          · intro h
            exact absurd ht (validateContent_head h)
          · intro h
            simp at h
        · intro h
          simp at h
      · exact h
    · intro h
      exact Or.inr h
  obtain ⟨hi1, hi2, hi3⟩ := validateRoyalty_iffs hs hb
  exact ⟨(hmem "Royalty splits must sum to total bps" rfl).trans hi1,
    (hmem "Royalty bps must be 0-10000" rfl).trans hi2,
    (hmem "Royalty requires address" rfl).trans hi3⟩

/-- Witness for C8: an empty splits list against `bps = 0` is accepted (no
splits-sum violation), while a single split of 5 against `bps = 10` is
rejected. -/
theorem C8_royalty_splits_sum_witness :
    ¬ ("Royalty splits must sum to total bps" ∈
        (validateMetadata [("royalty", JValue.obj [("bps", JValue.num 0),
          ("address", JValue.str "addr"), ("splits", JValue.arr [])])]).2) ∧
    ("Royalty splits must sum to total bps" ∈
        (validateMetadata [("royalty", JValue.obj [("bps", JValue.num 10),
          ("address", JValue.str "addr"),
          ("splits", JValue.arr [JValue.obj [("address", JValue.str "a"),
            ("bps", JValue.num 5)]])])]).2) := by
  constructor
  · intro hmm
    have h := (C8_royalty_splits_sum
      [("royalty", JValue.obj [("bps", JValue.num 0),
        ("address", JValue.str "addr"), ("splits", JValue.arr [])])]
      (JValue.obj [("bps", JValue.num 0), ("address", JValue.str "addr"),
        ("splits", JValue.arr [])])
      [] 0 rfl rfl rfl (fun s hs => absurd hs (by simp))).1
    exact absurd (h.mp hmm) (by decide)
  · refine (C8_royalty_splits_sum
      [("royalty", JValue.obj [("bps", JValue.num 10),
        ("address", JValue.str "addr"),
        ("splits", JValue.arr [JValue.obj [("address", JValue.str "a"),
          ("bps", JValue.num 5)]])])]
      (JValue.obj [("bps", JValue.num 10), ("address", JValue.str "addr"),
        ("splits", JValue.arr [JValue.obj [("address", JValue.str "a"),
          ("bps", JValue.num 5)]])])
      [JValue.obj [("address", JValue.str "a"), ("bps", JValue.num 5)]] 10
      rfl rfl rfl ?_).1.mpr (by decide)
    intro s hs
    simp at hs
    subst hs
    exact ⟨5, rfl⟩
